import Mathlib

/-!
Verification of the `CatalogBuilder` pipeline
(`Catalog/catalog_builder/catalog.py` of the PSL repository).

The Python source is shallowly embedded below:

* `Project` models one entry of `register.json` (`{org, repo, branch}`).
* `AttrConfig` models one attribute descriptor of a fetched
  `PSL_catalog.json` document.
* `Json` models the JSON values this program assembles and serializes
  (null, strings and objects; Python dicts are modelled as
  insertion-ordered key/value sequences, the observable behaviour of
  `dict` since Python 3.7).
* `CatalogBuilder.make` models `CatalogBuilder.__init__` (with an
  explicit project list, so the `register.json` read is the caller's
  input).
* `CatalogBuilder.load_catalog` models `CatalogBuilder.load_catalog`;
  the GitHub network is an explicit oracle (`Fetchers`) and the
  replay-mode file read takes the file's text as an argument.
* `CatalogBuilder.dump_catalog` models `CatalogBuilder.dump_catalog`;
  the optional file write is returned as an explicit `(path, text)`
  event.
* `dumpVal`/`parseValue` model `json.dumps(·, indent=4)` and
  `json.loads` of the Python standard library (external collaborators
  of the source file) on the value forms the catalog uses.
-/

/-- One entry of `register.json`: `{org, repo, branch}`. -/
structure Project where
  org : String
  repo : String
  branch : String
deriving Repr, DecidableEq

/-- One attribute descriptor of a `PSL_catalog.json` document, with the
fields `catalog.py` reads: `type`, `source`, `data` (`start_header` and
`end_header` are only read inside `utils`, which consumes the whole
descriptor). JSON-null fields are `none`. -/
structure AttrConfig where
  type : String
  source : Option String
  data : Option String
  start_header : Option String
  end_header : Option String
deriving Repr, DecidableEq

mutual

/-- The JSON values assembled and serialized by this program: null,
strings, and objects with insertion-ordered keys. -/
inductive Json where
  | null : Json
  | str : String → Json
  | obj : JsonMembers → Json
deriving Repr, DecidableEq

/-- The ordered key/value sequence of a JSON object (a Python `dict` in
insertion order). -/
inductive JsonMembers where
  | nil : JsonMembers
  | cons : String → Json → JsonMembers → JsonMembers
deriving Repr, DecidableEq

end

/-- Builds an object member sequence from a list of pairs. -/
def JsonMembers.ofList : List (String × Json) → JsonMembers
  | [] => .nil
  | (k, v) :: t => .cons k v (JsonMembers.ofList t)

/-- The list of pairs of an object member sequence. -/
def JsonMembers.toList : JsonMembers → List (String × Json)
  | .nil => []
  | .cons k v t => (k, v) :: JsonMembers.toList t

/-- Prepends a list of pairs in front of a member sequence. -/
def JsonMembers.consList : List (String × Json) → JsonMembers → JsonMembers
  | [], ms => ms
  | (k, v) :: t, ms => .cons k v (JsonMembers.consList t ms)

/-- Python `dict` assignment `d[k] = v` on an insertion-ordered
association list: an existing key keeps its position, a new key is
appended at the end. -/
def dictInsert (k : String) (v : α) : List (String × α) → List (String × α)
  | [] => [(k, v)]
  | (k', v') :: t => if k' = k then (k, v) :: t else (k', v') :: dictInsert k v t

/-- Python `dict` lookup `d[k]`, as an `Option`. -/
def lookupA : List (String × α) → String → Option α
  | [], _ => none
  | (k, v) :: t, key => if k = key then some v else lookupA t key

/-- The builder object: the fields of `CatalogBuilder` the pipeline uses
(`index_dir` and `card_dir` are only path configuration). -/
structure CatalogBuilder where
  projects : List Project
  catalog : Json
  repos : List (String × String)
  develop : Bool
deriving Repr, DecidableEq

/-- `CatalogBuilder.__init__` with an explicit project list: sets
`catalog = defaultdict(dict)` (an empty object) and `repos = \x7b\x7d`;
when `build_one` is given, replaces the project list with the singleton
list containing the first project whose `repo` equals `build_one`, and
raises `ProjectDoesNotExist` (modelled as `Except.error` carrying the
formatted message) when none matches. -/
def CatalogBuilder.make (projects : List Project) (develop : Bool)
    (build_one : Option String) : Except String CatalogBuilder :=
  match build_one with
  | none => .ok { projects := projects, catalog := .obj .nil, repos := [], develop := develop }
  | some b =>
    match projects.find? (fun p => p.repo == b) with
    | some p => .ok { projects := [p], catalog := .obj .nil, repos := [], develop := develop }
    | none => .error (b ++ " is not in register.json or projects if provided.")

/-- Index of the first occurrence of `pat` in `hay` (leftmost match),
over character lists. -/
def findSub : List Char → List Char → Option Nat
  | [], pat => if pat.isEmpty then some 0 else none
  | c :: rest, pat =>
    if pat.isPrefixOf (c :: rest) then some 0
    else (findSub rest pat).map (· + 1)

/-- Modelled from the spec: `utils.parse_section`, used by
`utils.get_from_github_api` (the `catalog_builder.utils` module is not
under `src/`): locate the first occurrence of the start marker in the
fetched text and the first occurrence of the end marker after it, and
extract the text strictly between them (`none` when a marker is absent,
an open case in the spec). -/
def parse_section (text start stop : String) : Option String :=
  match findSub text.data start.data with
  | none => none
  | some i =>
    let tail := text.data.drop (i + start.data.length)
    match findSub tail stop.data with
    | none => none
    | some j => some (String.mk (tail.take j))

/-- One hexadecimal digit, lowercase, as emitted by Python's
`json.dumps` `\uXXXX` escapes. -/
def hexDigitChar (n : Nat) : Char :=
  if n < 10 then Char.ofNat (48 + n) else Char.ofNat (87 + n)

/-- Four lowercase hexadecimal digits of `n < 0x10000`. -/
def hex4 (n : Nat) : List Char :=
  [hexDigitChar (n / 4096 % 16), hexDigitChar (n / 256 % 16),
   hexDigitChar (n / 16 % 16), hexDigitChar (n % 16)]

/-- The escape of one character in a JSON string as produced by
`json.dumps` with its default `ensure_ascii=True`: short escapes for
quote, backslash and the common control characters, the character
itself for printable ASCII, and `\uXXXX` (a surrogate pair beyond the
basic multilingual plane) for everything else. -/
def escChar (c : Char) : List Char :=
  if c = '"' then ['\\', '"']
  else if c = '\\' then ['\\', '\\']
  else if c = '\x08' then ['\\', 'b']
  else if c = '\x0c' then ['\\', 'f']
  else if c = '\n' then ['\\', 'n']
  else if c = '\r' then ['\\', 'r']
  else if c = '\t' then ['\\', 't']
  else if 0x20 ≤ c.toNat ∧ c.toNat ≤ 0x7e then [c]
  else if c.toNat < 0x10000 then '\\' :: 'u' :: hex4 c.toNat
  else
    ('\\' :: 'u' :: hex4 (0xd800 + (c.toNat - 0x10000) / 1024)) ++
    ('\\' :: 'u' :: hex4 (0xdc00 + (c.toNat - 0x10000) % 1024))

/-- The escaped body of a JSON string literal. -/
def escStr : List Char → List Char
  | [] => []
  | c :: rest => escChar c ++ escStr rest

/-- `4 * level` spaces: the indentation of `json.dumps(·, indent=4)`. -/
def pad (level : Nat) : List Char :=
  List.replicate (4 * level) ' '

mutual

/-- `json.dumps(v, indent=4)` on the modelled JSON values, as a
character list. `level` is the current nesting depth. -/
def dumpVal : Json → Nat → List Char
  | .null, _ => ['n', 'u', 'l', 'l']
  | .str s, _ => '"' :: (escStr s.data ++ ['"'])
  | .obj .nil, _ => ['\x7b', '\x7d']
  | .obj (.cons k v t), level => '\x7b' :: '\n' :: dumpMembers (.cons k v t) (level + 1)

/-- The members of a non-empty object, each on its own line indented by
`4 * level` spaces, with the closing brace (indented one level less)
appended after the last member. -/
def dumpMembers : JsonMembers → Nat → List Char
  | .nil, level => '\n' :: (pad (level - 1) ++ ['\x7d'])
  | .cons k v t, level =>
    (pad level ++ ('"' :: (escStr k.data ++ ['"'])) ++ (':' :: ' ' :: dumpVal v level)) ++
    (match t with
     | .nil => '\n' :: (pad (level - 1) ++ ['\x7d'])
     | .cons k' v' t' => ',' :: '\n' :: dumpMembers (.cons k' v' t') level)

end

/-- The text `json.dumps` emits after one member of a non-empty object:
the separator `,\n` followed by the remaining members, or the final
newline, closing indentation and closing brace. -/
def dmTail : JsonMembers → Nat → List Char
  | .nil, level => '\n' :: (pad (level - 1) ++ ['\x7d'])
  | .cons k v t, level => ',' :: '\n' :: dumpMembers (.cons k v t) level

/-- JSON whitespace, as skipped by `json.loads`. -/
def isWsChar (c : Char) : Bool :=
  c = ' ' || c = '\n' || c = '\t' || c = '\r'

/-- Drops leading JSON whitespace. -/
def skipWs : List Char → List Char
  | [] => []
  | c :: rest => if isWsChar c then skipWs rest else c :: rest

/-- The value of one hexadecimal digit character, if it is one. -/
def hexDigit? (c : Char) : Option Nat :=
  if '0' ≤ c ∧ c ≤ '9' then some (c.toNat - 48)
  else if 'a' ≤ c ∧ c ≤ 'f' then some (c.toNat - 87)
  else if 'A' ≤ c ∧ c ≤ 'F' then some (c.toNat - 55)
  else none

/-- JSON string-literal body scanner of `json.loads` (strict mode),
after the opening quote: literal characters up to the closing quote,
backslash escapes, `\uXXXX` with surrogate-pair combination. `fuel`
bounds the number of scanned source characters; each step consumes at
least one input character. A lone surrogate escape is rejected (Python
would build an unrepresentable non-scalar string; `json.dumps` of a
well-formed string never emits one). -/
def parseStrAux : Nat → List Char → List Char → Option (String × List Char)
  | 0, _, _ => none
  | _ + 1, _, [] => none
  | fuel + 1, acc, c :: rest =>
    if c = '"' then some (String.mk acc, rest)
    else if c = '\\' then
      match rest with
      | [] => none
      | e :: rest2 =>
        if e = '"' then parseStrAux fuel (acc ++ ['"']) rest2
        else if e = '\\' then parseStrAux fuel (acc ++ ['\\']) rest2
        else if e = '/' then parseStrAux fuel (acc ++ ['/']) rest2
        else if e = 'b' then parseStrAux fuel (acc ++ ['\x08']) rest2
        else if e = 'f' then parseStrAux fuel (acc ++ ['\x0c']) rest2
        else if e = 'n' then parseStrAux fuel (acc ++ ['\n']) rest2
        else if e = 'r' then parseStrAux fuel (acc ++ ['\r']) rest2
        else if e = 't' then parseStrAux fuel (acc ++ ['\t']) rest2
        else if e = 'u' then
          match rest2 with
          | h1 :: h2 :: h3 :: h4 :: rest3 =>
            match hexDigit? h1, hexDigit? h2, hexDigit? h3, hexDigit? h4 with
            | some d1, some d2, some d3, some d4 =>
              let n := 4096 * d1 + 256 * d2 + 16 * d3 + d4
              if 0xd800 ≤ n ∧ n ≤ 0xdbff then
                match rest3 with
                | b1 :: b2 :: g1 :: g2 :: g3 :: g4 :: rest4 =>
                  if b1 = '\\' ∧ b2 = 'u' then
                    match hexDigit? g1, hexDigit? g2, hexDigit? g3, hexDigit? g4 with
                    | some e1, some e2, some e3, some e4 =>
                      let m := 4096 * e1 + 256 * e2 + 16 * e3 + e4
                      if 0xdc00 ≤ m ∧ m ≤ 0xdfff then
                        parseStrAux fuel
                          (acc ++ [Char.ofNat (0x10000 + (n - 0xd800) * 1024 + (m - 0xdc00))])
                          rest4
                      else none
                    | _, _, _, _ => none
                  else none
                | _ => none
              else if 0xdc00 ≤ n ∧ n ≤ 0xdfff then none
              else parseStrAux fuel (acc ++ [Char.ofNat n]) rest3
            | _, _, _, _ => none
          | _ => none
        else none
    else if 0x20 ≤ c.toNat then parseStrAux fuel (acc ++ [c]) rest
    else none

mutual

/-- JSON value parser of `json.loads` on the document forms the
serializer emits (null, strings, objects): skips leading whitespace and
dispatches on the first character. `fuel` bounds the nesting recursion.
-/
def parseValue : Nat → List Char → Option (Json × List Char)
  | 0, _ => none
  | fuel + 1, input =>
    match skipWs input with
    | [] => none
    | c :: rest =>
      if c = '"' then
        match parseStrAux (rest.length + 1) [] rest with
        | some (s, r) => some (.str s, r)
        | none => none
      else if c = '\x7b' then
        match skipWs rest with
        | '\x7d' :: r => some (.obj .nil, r)
        | other => parseMembers fuel other []
      else if c = 'n' then
        match rest with
        | 'u' :: 'l' :: 'l' :: r => some (.null, r)
        | _ => none
      else none

/-- Parses the members of a non-empty JSON object after its opening
brace: `"key": value` pairs separated by commas, up to the closing
brace. `acc` holds the members already parsed. -/
def parseMembers : Nat → List Char → List (String × Json) → Option (Json × List Char)
  | 0, _, _ => none
  | fuel + 1, input, acc =>
    match skipWs input with
    | c :: rest =>
      if c = '"' then
        match parseStrAux (rest.length + 1) [] rest with
        | some (key, r1) =>
          match skipWs r1 with
          | ':' :: r2 =>
            match parseValue fuel r2 with
            | some (v, r3) =>
              match skipWs r3 with
              | ',' :: r4 => parseMembers fuel r4 (acc ++ [(key, v)])
              | '\x7d' :: r4 => some (.obj (JsonMembers.ofList (acc ++ [(key, v)])), r4)
              | _ => none
            | none => none
          | _ => none
        | none => none
      else none
    | [] => none

end

mutual

/-- Nesting size of a JSON value: an upper bound on the parser fuel its
serialized form needs. -/
def sizeJ : Json → Nat
  | .null => 1
  | .str _ => 1
  | .obj ms => 1 + sizeM ms

/-- Nesting size of an object member sequence. -/
def sizeM : JsonMembers → Nat
  | .nil => 1
  | .cons _ v t => 1 + sizeJ v + sizeM t

end

/-- `json.loads` on a whole document: one value, with only whitespace
allowed after it. The fuel `s.length + 1` dominates the nesting depth
of any value `s` can contain. -/
def parseJsonText (s : String) : Option Json :=
  match parseValue (s.length + 1) s.data with
  | some (j, rest) => if (skipWs rest).isEmpty then some j else none
  | none => none

/-- The network, as `load_catalog` sees it: `meta p` is the parsed
`PSL_catalog.json` of project `p` (`utils._get_from_github_api` plus
`json.loads`), and `file p config` is the section text
`utils.get_from_github_api` returns for a `github_file` attribute.
Transport failures abort the whole run in the source; a run modelled
here is one in which every issued fetch succeeds. -/
structure Fetchers where
  meta : Project → List (String × AttrConfig)
  file : Project → AttrConfig → String

/-- `repo_url.format(org, repo)`: `https://github.com/{org}/{repo}`. -/
def repoUrlOf (p : Project) : String :=
  "https://github.com/" ++ p.org ++ "/" ++ p.repo

/-- A JSON-null-or-string descriptor field as a JSON value. -/
def optJson : Option String → Json
  | none => Json.null
  | some s => Json.str s

/-- Python f-string interpolation of a null-or-string value
(`None` prints as `"None"`). -/
def fmtOpt : Option String → String
  | none => "None"
  | some s => s

/-- The `source` URL constructed for a `github_file` attribute:
`https://github.com/{org}/{repo}/blob/{branch}/{config['source']}`. -/
def githubSource (p : Project) (cfg : AttrConfig) : String :=
  "https://github.com/" ++ p.org ++ "/" ++ p.repo ++ "/blob/" ++ p.branch ++ "/" ++
    fmtOpt cfg.source

/-- Python `repr` of a null-or-string descriptor field. -/
def pyOptRepr : Option String → String
  | none => "None"
  | some s => "'" ++ s ++ "'"

/-- Python f-string rendering of the descriptor dictionary (`{config}`
in the diagnostic message), with the fields in the schema's order. -/
def configRepr (cfg : AttrConfig) : String :=
  "\x7b'type': '" ++ cfg.type ++ "', 'source': " ++ pyOptRepr cfg.source ++
  ", 'data': " ++ pyOptRepr cfg.data ++ ", 'start_header': " ++ pyOptRepr cfg.start_header ++
  ", 'end_header': " ++ pyOptRepr cfg.end_header ++ "\x7d"

/-- The diagnostic printed for an attribute whose `type` is neither
`github_file` nor `html`:
`MISSING DATA: {repo}, entry: {attr}, {config}`. -/
def missingMsg (p : Project) (attr : String) (cfg : AttrConfig) : String :=
  "MISSING DATA: " ++ p.repo ++ ", entry: " ++ attr ++ ", " ++ configRepr cfg

/-- The resolved attribute `{"source": source, "value": value}` for one
descriptor entry, together with the diagnostic messages printed while
resolving it (one message exactly when the `type` is unrecognized). -/
def resolveEntry (F : Fetchers) (p : Project) (attr : String) (cfg : AttrConfig) :
    Json × List String :=
  if cfg.type = "github_file" then
    (.obj (.cons "source" (.str (githubSource p cfg)) (.cons "value" (.str (F.file p cfg)) .nil)),
     [])
  else if cfg.type = "html" then
    (.obj (.cons "source" (optJson cfg.source) (.cons "value" (optJson cfg.data) .nil)), [])
  else
    (.obj (.cons "source" Json.null (.cons "value" Json.null .nil)), [missingMsg p attr cfg])

/-- The `name` attribute written first for every project:
`{"value": repo, "source": ""}`. -/
def nameRes (repo : String) : Json :=
  .obj (.cons "value" (.str repo) (.cons "source" (.str "") .nil))

/-- The in-progress catalog of the network run: repository name to
insertion-ordered attribute entries. -/
abbrev NetCat := List (String × List (String × Json))

/-- `self.catalog[repo][attr] = v` on a `defaultdict(dict)`: accessing a
missing repository key creates an empty entry (appended at the end),
then the attribute is inserted into that entry. -/
def catInsert (cat : NetCat) (repo attr : String) (v : Json) : NetCat :=
  match lookupA cat repo with
  | some e => dictInsert repo (dictInsert attr v e) cat
  | none => dictInsert repo [(attr, v)] cat

/-- The mutable state threaded through `load_catalog`: the `catalog`
and `repos` attributes and the transcript of diagnostics printed. -/
structure RunSt where
  cat : NetCat
  repos : List (String × String)
  log : List String
deriving Repr

/-- One iteration of the network-mode project loop of `load_catalog`:
fetch the descriptor, write the `name` attribute and the repo link,
then resolve every descriptor entry in order into the project's
catalog entry. -/
def processProject (F : Fetchers) (st : RunSt) (p : Project) : RunSt :=
  let cat1 := catInsert st.cat p.repo "name" (nameRes p.repo)
  let repos1 := dictInsert p.repo (repoUrlOf p) st.repos
  let res := (F.meta p).foldl
    (fun (a : NetCat × List String) kv =>
      let r := resolveEntry F p kv.1 kv.2
      (catInsert a.1 p.repo kv.1 r.1, a.2 ++ r.2))
    (cat1, st.log)
  { cat := res.1, repos := repos1, log := res.2 }

/-- Lexicographic (code-point) string order on character lists:
Python's `str` comparison. -/
def lexLE : List Char → List Char → Bool
  | [], _ => true
  | _ :: _, [] => false
  | c :: cs, d :: ds => if c = d then lexLE cs ds else decide (c < d)

/-- The sort key of `sorted(self.projects, key=lambda x:
x["repo"].upper())`: the upper-cased repository name. `Char.toUpper`,
like Python `upper` on the ASCII names the registry holds, upcases
`a`-`z`. -/
def upKey (p : Project) : List Char :=
  p.repo.data.map Char.toUpper

/-- The project order `sorted` uses: case-insensitive (upper-cased)
lexicographic comparison of repository names. -/
def projLE (a b : Project) : Prop :=
  lexLE (upKey a) (upKey b) = true

instance : DecidableRel projLE := fun a b =>
  inferInstanceAs (Decidable (lexLE (upKey a) (upKey b) = true))

/-- Python `sorted` by the upper-cased repository name. `sorted` is a
stable sort, and a stable sort's output is determined by the key order
and the input order, so the stable `List.insertionSort` models it
exactly. -/
def sortProjects (l : List Project) : List Project :=
  l.insertionSort projLE

/-- The network-mode body of `load_catalog`: the project loop over the
sorted projects. -/
def runNetwork (F : Fetchers) (projects : List Project) (st : RunSt) : RunSt :=
  (sortProjects projects).foldl (processProject F) st

/-- The assembled `NetCat` as the JSON value held in `self.catalog`. -/
def netToJson (cat : NetCat) : Json :=
  .obj (JsonMembers.ofList (cat.map (fun kv => (kv.1, Json.obj (JsonMembers.ofList kv.2)))))

/-- The key/entry view of the `catalog` attribute's JSON value, used to
resume the network fold from the builder's current state. On the state
`__init__` creates (`defaultdict(dict)`, an empty object) this is the
empty catalog. -/
def jsonToNet : Json → NetCat
  | .obj ms => ms.toList.map (fun kv =>
      (kv.1, match kv.2 with
             | .obj e => e.toList
             | _ => []))
  | _ => []

/-- `CatalogBuilder.load_catalog`. In network mode (`develop = false`):
iterate the projects sorted by upper-cased repository name, fetching
and resolving each descriptor. In replay mode (`develop = true`): set
`catalog` to the parsed contents of `catalog.json` (given here as
`fileText`), populate `repos` from the in-memory project references,
and print the two mode messages; a file whose text does not parse
raises (`Except.error`). Returns the updated builder and the
transcript of printed messages. -/
def CatalogBuilder.load_catalog (F : Fetchers) (fileText : String) (cb : CatalogBuilder) :
    Except String (CatalogBuilder × List String) :=
  if cb.develop then
    match parseJsonText fileText with
    | some j =>
      let repos := cb.projects.foldl (fun r p => dictInsert p.repo (repoUrlOf p) r) cb.repos
      .ok ({ cb with catalog := j, repos := repos },
        ["Develop mode. Loading Catalog from catalog.json", "Catalog Loaded"])
    | none => .error "json.load: invalid catalog.json"
  else
    let st := runNetwork F cb.projects { cat := jsonToNet cb.catalog, repos := cb.repos, log := [] }
    .ok ({ cb with catalog := netToJson st.cat, repos := st.repos }, st.log)

/-- `CatalogBuilder.dump_catalog`: serialize `self.catalog` with
`json.dumps(·, indent=4)`; when an output path is given, write exactly
that text there (the write is returned as an explicit
`(path, contents)` event); always return the text. -/
def CatalogBuilder.dump_catalog (cb : CatalogBuilder) (output_path : Option String) :
    String × Option (String × String) :=
  let cat_json := String.mk (dumpVal cb.catalog 0)
  (cat_json, output_path.map (fun pth => (pth, cat_json)))

/-- Key lookup in a JSON object value (`none` on non-objects). -/
def objLookup : Json → String → Option Json
  | .obj ms, k => lookupA ms.toList k
  | _, _ => none

/-- The insertion-ordered key list of a JSON object value. -/
def jsonKeys : Json → List String
  | .obj ms => ms.toList.map Prod.fst
  | _ => []

/-- The attribute loop of one project restricted to an explicit
descriptor list, acting on the project's catalog entry alone (the
per-attribute `self.catalog[repo][attr] = res` assignments). -/
def entryFoldL (F : Fetchers) (p : Project) (meta : List (String × AttrConfig))
    (e : List (String × Json)) : List (String × Json) :=
  meta.foldl (fun acc kv => dictInsert kv.1 (resolveEntry F p kv.1 kv.2).1 acc) e

/-- The attribute loop of one project restricted to an explicit
descriptor list, acting on the whole catalog. -/
def catFoldL (F : Fetchers) (p : Project) (meta : List (String × AttrConfig))
    (c0 : NetCat) : NetCat :=
  meta.foldl (fun c kv => catInsert c p.repo kv.1 (resolveEntry F p kv.1 kv.2).1) c0

/-- The diagnostics printed while resolving an explicit descriptor
list of one project. -/
def projLogL (F : Fetchers) (p : Project) (meta : List (String × AttrConfig)) : List String :=
  meta.foldl (fun l kv => l ++ (resolveEntry F p kv.1 kv.2).2) []

/-- The diagnostics printed while processing one project. -/
def projLog (F : Fetchers) (p : Project) : List String :=
  projLogL F p (F.meta p)

/-- The catalog entry stored under `r`, or the empty entry a
`defaultdict(dict)` access would create. -/
def entryOr (cat : NetCat) (r : String) : List (String × Json) :=
  (lookupA cat r).getD []

/-- The key sequence obtained by inserting keys in order into a Python
dict that already has keys `ks`: an existing key keeps its place, a new
key is appended. -/
def insKeys : List String → List String → List String
  | ks, [] => ks
  | ks, r :: rs => insKeys (if r ∈ ks then ks else ks ++ [r]) rs

/-- Case-insensitive (upper-cased, code-point) lexicographic order on
strings: the order of catalog keys the spec describes. -/
def strUpLE (a b : String) : Prop :=
  lexLE (a.data.map Char.toUpper) (b.data.map Char.toUpper) = true

/-! ## Association-list lemmas -/

theorem lookupA_dictInsert_self (l : List (String × α)) (k : String) (v : α) :
    lookupA (dictInsert k v l) k = some v := by
  induction l with
  | nil => simp [dictInsert, lookupA]
  | cons kv t ih =>
    obtain ⟨k', v'⟩ := kv
    by_cases h : k' = k
    · simp [dictInsert, h, lookupA]
    · simp [dictInsert, h, lookupA, ih]

theorem lookupA_dictInsert_other (l : List (String × α)) (k k' : String) (v : α)
    (h : k' ≠ k) : lookupA (dictInsert k v l) k' = lookupA l k' := by
  have h' : ¬k = k' := fun hh => h hh.symm
  induction l with
  | nil => simp [dictInsert, lookupA, h']
  | cons kv t ih =>
    obtain ⟨k0, v0⟩ := kv
    by_cases h0 : k0 = k
    · subst h0
      simp [dictInsert, lookupA, h']
    · by_cases h1 : k0 = k'
      · simp [dictInsert, h0, lookupA, h1, h]
      · simp [dictInsert, h0, lookupA, h1, ih]

theorem keys_dictInsert (l : List (String × α)) (k : String) (v : α) :
    (dictInsert k v l).map Prod.fst =
      if k ∈ l.map Prod.fst then l.map Prod.fst else l.map Prod.fst ++ [k] := by
  induction l with
  | nil => simp [dictInsert]
  | cons kv t ih =>
    obtain ⟨k0, v0⟩ := kv
    by_cases h0 : k0 = k
    · subst h0
      simp [dictInsert]
    · have h0' : ¬k = k0 := fun hh => h0 hh.symm
      simp only [dictInsert, if_neg h0, List.map_cons, List.mem_cons]
      rw [ih]
      by_cases h1 : k ∈ t.map Prod.fst
      · simp [h1, h0']
      · simp [h1, h0']

theorem dictInsert_of_notMem (l : List (String × α)) (k : String) (v : α)
    (h : k ∉ l.map Prod.fst) : dictInsert k v l = l ++ [(k, v)] := by
  induction l with
  | nil => simp [dictInsert]
  | cons kv t ih =>
    obtain ⟨k0, v0⟩ := kv
    simp only [List.map_cons, List.mem_cons] at h
    push_neg at h
    have h1 : ¬k0 = k := fun hh => h.1 hh.symm
    simp [dictInsert, h1, ih h.2]

theorem lookupA_isSome_iff (l : List (String × α)) (k : String) :
    (lookupA l k).isSome ↔ k ∈ l.map Prod.fst := by
  induction l with
  | nil => simp [lookupA]
  | cons kv t ih =>
    obtain ⟨k0, v0⟩ := kv
    by_cases h : k0 = k
    · simp [lookupA, h]
    · have h' : ¬k = k0 := fun hh => h hh.symm
      simp [lookupA, h, ih, h']

/-! ## C3 / C9: the `build_one` single-project filter -/

/-- C3. For every project list and repository-name filter: if some
project matches, construction yields the builder whose project list is
the singleton containing the (first) matching project reference; if no
project matches, construction fails with the `ProjectDoesNotExist`
message and no builder is produced. -/
theorem build_one_filter (projects : List Project) (develop : Bool) (b : String) :
    ((∃ p ∈ projects, p.repo = b) →
      ∃ p, p ∈ projects ∧ p.repo = b ∧
        CatalogBuilder.make projects develop (some b) =
          .ok { projects := [p], catalog := .obj .nil, repos := [], develop := develop }) ∧
    ((∀ p ∈ projects, p.repo ≠ b) →
      CatalogBuilder.make projects develop (some b) =
        .error (b ++ " is not in register.json or projects if provided.")) := by
  constructor
  · rintro ⟨p, hp, hb⟩
    have hex : (projects.find? (fun q => q.repo == b)).isSome := by
      rw [List.find?_isSome]
      exact ⟨p, hp, by simpa using hb⟩
    obtain ⟨q, hq⟩ := Option.isSome_iff_exists.mp hex
    refine ⟨q, List.mem_of_find?_eq_some hq, by simpa using List.find?_some hq, ?_⟩
    simp [CatalogBuilder.make, hq]
  · intro h
    have : projects.find? (fun q => q.repo == b) = none := by
      rw [List.find?_eq_none]
      intro p hp
      simpa using h p hp
    simp [CatalogBuilder.make, this]

/-- Witness for C3 at the spec's example: registry `alpha, beta, gamma`,
filter `beta` (present) and `delta` (absent). -/
theorem build_one_filter_witness :
    (∃ p ∈ [Project.mk "o" "alpha" "m", Project.mk "o" "beta" "m", Project.mk "o" "gamma" "m"],
        p.repo = "beta") ∧
    (∃ p, p ∈ [Project.mk "o" "alpha" "m", Project.mk "o" "beta" "m", Project.mk "o" "gamma" "m"] ∧
        p.repo = "beta" ∧
        CatalogBuilder.make
            [Project.mk "o" "alpha" "m", Project.mk "o" "beta" "m", Project.mk "o" "gamma" "m"]
            false (some "beta") =
          .ok { projects := [p], catalog := .obj .nil, repos := [], develop := false }) ∧
    CatalogBuilder.make
        [Project.mk "o" "alpha" "m", Project.mk "o" "beta" "m", Project.mk "o" "gamma" "m"]
        false (some "delta") =
      .error ("delta" ++ " is not in register.json or projects if provided.") := by
  refine ⟨⟨Project.mk "o" "beta" "m", by decide, rfl⟩, ?_, ?_⟩
  · exact (build_one_filter _ false "beta").1 ⟨Project.mk "o" "beta" "m", by decide, rfl⟩
  · exact (build_one_filter _ false "delta").2 (by decide)

/-- C9. When several projects carry the filtered repository name, the
first matching entry (in original list order) is kept and later
duplicates are discarded. -/
theorem build_one_first_match (l1 l2 : List Project) (p : Project) (develop : Bool)
    (b : String) (hp : p.repo = b) (h1 : ∀ q ∈ l1, q.repo ≠ b) :
    CatalogBuilder.make (l1 ++ p :: l2) develop (some b) =
      .ok { projects := [p], catalog := .obj .nil, repos := [], develop := develop } := by
  have hfind : (l1 ++ p :: l2).find? (fun q => q.repo == b) = some p := by
    induction l1 with
    | nil => simp [List.find?, hp]
    | cons q t ih =>
      have hq : (q.repo == b) = false := by
        simpa using h1 q (List.mem_cons_self q t)
      simp only [List.cons_append, List.find?, hq]
      exact ih (fun r hr => h1 r (List.mem_cons_of_mem q hr))
  simp [CatalogBuilder.make, hfind]

/-- Witness for C9: two projects named `beta`; the first one (org `o1`)
is kept. -/
theorem build_one_first_match_witness :
    CatalogBuilder.make
        [Project.mk "o" "alpha" "m", Project.mk "o1" "beta" "m", Project.mk "o2" "beta" "m"]
        false (some "beta") =
      .ok { projects := [Project.mk "o1" "beta" "m"], catalog := .obj .nil, repos := [],
            develop := false } :=
  build_one_first_match [Project.mk "o" "alpha" "m"] [Project.mk "o2" "beta" "m"]
    (Project.mk "o1" "beta" "m") false "beta" rfl (by decide)

/-! ## C5: remote-file-region extraction -/

/-- C5. For fetched content `"...START\nHELLO\nEND..."` with markers
`START` and `END`, the extracted region is exactly `"\nHELLO\n"`: the
substring strictly between the first occurrence of the start marker and
the first occurrence of the end marker after it. -/
theorem parse_section_example :
    parse_section "...START\nHELLO\nEND..." "START" "END" = some "\nHELLO\n" := by
  decide

/-! ## Catalog-insertion lemmas -/

theorem lookupA_catInsert_self (cat : NetCat) (r a : String) (v : Json) :
    lookupA (catInsert cat r a v) r = some (dictInsert a v (entryOr cat r)) := by
  unfold catInsert entryOr
  cases h : lookupA cat r with
  | none => simp [lookupA_dictInsert_self, dictInsert]
  | some e => simp [lookupA_dictInsert_self]

theorem lookupA_catInsert_other (cat : NetCat) (r r' a : String) (v : Json)
    (h : r' ≠ r) : lookupA (catInsert cat r a v) r' = lookupA cat r' := by
  unfold catInsert
  cases lookupA cat r with
  | none => exact lookupA_dictInsert_other _ _ _ _ h
  | some e => exact lookupA_dictInsert_other _ _ _ _ h

theorem keys_catInsert (cat : NetCat) (r a : String) (v : Json) :
    (catInsert cat r a v).map Prod.fst =
      if r ∈ cat.map Prod.fst then cat.map Prod.fst else cat.map Prod.fst ++ [r] := by
  unfold catInsert
  cases lookupA cat r with
  | none => exact keys_dictInsert _ _ _
  | some e => exact keys_dictInsert _ _ _

theorem lookupA_catFoldL_other (F : Fetchers) (p : Project)
    (meta : List (String × AttrConfig)) (c0 : NetCat) (r : String) (h : r ≠ p.repo) :
    lookupA (catFoldL F p meta c0) r = lookupA c0 r := by
  induction meta generalizing c0 with
  | nil => rfl
  | cons kv t ih =>
    unfold catFoldL
    simp only [List.foldl_cons]
    rw [show ∀ c, List.foldl
        (fun c kv => catInsert c p.repo kv.1 (resolveEntry F p kv.1 kv.2).1) c t =
        catFoldL F p t c from fun c => rfl]
    rw [ih, lookupA_catInsert_other _ _ _ _ _ h]

theorem lookupA_catFoldL_self (F : Fetchers) (p : Project)
    (meta : List (String × AttrConfig)) (c0 : NetCat) (e : List (String × Json))
    (h : lookupA c0 p.repo = some e) :
    lookupA (catFoldL F p meta c0) p.repo = some (entryFoldL F p meta e) := by
  induction meta generalizing c0 e with
  | nil => simpa [catFoldL, entryFoldL] using h
  | cons kv t ih =>
    unfold catFoldL entryFoldL
    simp only [List.foldl_cons]
    rw [show ∀ c, List.foldl
        (fun c kv => catInsert c p.repo kv.1 (resolveEntry F p kv.1 kv.2).1) c t =
        catFoldL F p t c from fun c => rfl]
    have he : entryOr c0 p.repo = e := by simp [entryOr, h]
    rw [ih _ _ (by rw [lookupA_catInsert_self, he])]
    rfl

theorem keys_catFoldL (F : Fetchers) (p : Project) (meta : List (String × AttrConfig))
    (c0 : NetCat) (h : p.repo ∈ c0.map Prod.fst) :
    (catFoldL F p meta c0).map Prod.fst = c0.map Prod.fst := by
  induction meta generalizing c0 with
  | nil => rfl
  | cons kv t ih =>
    unfold catFoldL
    simp only [List.foldl_cons]
    rw [show ∀ c, List.foldl
        (fun c kv => catInsert c p.repo kv.1 (resolveEntry F p kv.1 kv.2).1) c t =
        catFoldL F p t c from fun c => rfl]
    have hk : (catInsert c0 p.repo kv.1 (resolveEntry F p kv.1 kv.2).1).map Prod.fst =
        c0.map Prod.fst := by
      rw [keys_catInsert, if_pos h]
    rw [ih _ (by rw [hk]; exact h), hk]

/-! ## Decomposition of one project's processing -/

theorem projLogL_from (F : Fetchers) (p : Project) (meta : List (String × AttrConfig))
    (lg0 : List String) :
    meta.foldl (fun l kv => l ++ (resolveEntry F p kv.1 kv.2).2) lg0 =
      lg0 ++ projLogL F p meta := by
  induction meta generalizing lg0 with
  | nil => simp [projLogL]
  | cons kv t ih =>
    simp only [projLogL, List.foldl_cons, List.nil_append] at *
    rw [ih, ih ((resolveEntry F p kv.1 kv.2).2), List.append_assoc]

theorem projLogL_cons (F : Fetchers) (p : Project) (kv : String × AttrConfig)
    (t : List (String × AttrConfig)) :
    projLogL F p (kv :: t) = (resolveEntry F p kv.1 kv.2).2 ++ projLogL F p t := by
  unfold projLogL
  simp only [List.foldl_cons, List.nil_append]
  rw [projLogL_from]
  rfl

theorem processPair_split (F : Fetchers) (p : Project) (meta : List (String × AttrConfig))
    (c0 : NetCat) (lg0 : List String) :
    meta.foldl
      (fun (a : NetCat × List String) kv =>
        let r := resolveEntry F p kv.1 kv.2
        (catInsert a.1 p.repo kv.1 r.1, a.2 ++ r.2))
      (c0, lg0) =
      (catFoldL F p meta c0, lg0 ++ projLogL F p meta) := by
  induction meta generalizing c0 lg0 with
  | nil => simp [catFoldL, projLogL]
  | cons kv t ih =>
    simp only [List.foldl_cons]
    rw [ih, projLogL_cons]
    unfold catFoldL
    simp only [List.foldl_cons, List.append_assoc]

theorem processProject_eq (F : Fetchers) (st : RunSt) (p : Project) :
    processProject F st p =
      { cat := catFoldL F p (F.meta p) (catInsert st.cat p.repo "name" (nameRes p.repo)),
        repos := dictInsert p.repo (repoUrlOf p) st.repos,
        log := st.log ++ projLog F p } := by
  show RunSt.mk _ _ _ = _
  rw [show (F.meta p).foldl
      (fun (a : NetCat × List String) kv =>
        let r := resolveEntry F p kv.1 kv.2
        (catInsert a.1 p.repo kv.1 r.1, a.2 ++ r.2))
      (catInsert st.cat p.repo "name" (nameRes p.repo), st.log) =
      (catFoldL F p (F.meta p) (catInsert st.cat p.repo "name" (nameRes p.repo)),
       st.log ++ projLogL F p (F.meta p)) from processPair_split F p (F.meta p) _ _]
  rfl

theorem processProject_lookup_other (F : Fetchers) (st : RunSt) (p : Project) (r : String)
    (h : r ≠ p.repo) : lookupA (processProject F st p).cat r = lookupA st.cat r := by
  rw [processProject_eq]
  exact (lookupA_catFoldL_other F p _ _ r h).trans (lookupA_catInsert_other _ _ _ _ _ h)

theorem processProject_lookup_self (F : Fetchers) (st : RunSt) (p : Project) :
    lookupA (processProject F st p).cat p.repo =
      some (entryFoldL F p (F.meta p)
        (dictInsert "name" (nameRes p.repo) (entryOr st.cat p.repo))) := by
  rw [processProject_eq]
  exact lookupA_catFoldL_self F p _ _ _ (lookupA_catInsert_self _ _ _ _)

theorem processProject_keys (F : Fetchers) (st : RunSt) (p : Project) :
    (processProject F st p).cat.map Prod.fst =
      if p.repo ∈ st.cat.map Prod.fst then st.cat.map Prod.fst
      else st.cat.map Prod.fst ++ [p.repo] := by
  rw [processProject_eq]
  have h1 : (catInsert st.cat p.repo "name" (nameRes p.repo)).map Prod.fst =
      if p.repo ∈ st.cat.map Prod.fst then st.cat.map Prod.fst
      else st.cat.map Prod.fst ++ [p.repo] := keys_catInsert _ _ _ _
  have h2 : p.repo ∈ (catInsert st.cat p.repo "name" (nameRes p.repo)).map Prod.fst := by
    rw [h1]
    by_cases h : p.repo ∈ st.cat.map Prod.fst
    · simp [h]
    · simp [h]
  rw [keys_catFoldL F p _ _ h2, h1]

/-! ## Entry-level lemmas -/

theorem lookupA_entryFoldL_not_mem (F : Fetchers) (p : Project)
    (meta : List (String × AttrConfig)) (e : List (String × Json)) (a : String)
    (h : a ∉ meta.map Prod.fst) :
    lookupA (entryFoldL F p meta e) a = lookupA e a := by
  induction meta generalizing e with
  | nil => rfl
  | cons kv t ih =>
    simp only [List.map_cons, List.mem_cons] at h
    push_neg at h
    unfold entryFoldL
    simp only [List.foldl_cons]
    rw [show ∀ e0, List.foldl
        (fun acc kv => dictInsert kv.1 (resolveEntry F p kv.1 kv.2).1 acc) e0 t =
        entryFoldL F p t e0 from fun e0 => rfl]
    rw [ih _ h.2, lookupA_dictInsert_other _ _ _ _ h.1]

theorem lookupA_entryFoldL_mem (F : Fetchers) (p : Project)
    (meta : List (String × AttrConfig)) (e : List (String × Json)) (a : String)
    (cfg : AttrConfig) (hdist : (meta.map Prod.fst).Pairwise (· ≠ ·))
    (hmem : (a, cfg) ∈ meta) :
    lookupA (entryFoldL F p meta e) a = some (resolveEntry F p a cfg).1 := by
  induction meta generalizing e with
  | nil => cases hmem
  | cons kv t ih =>
    simp only [List.map_cons, List.pairwise_cons] at hdist
    unfold entryFoldL
    simp only [List.foldl_cons]
    rw [show ∀ e0, List.foldl
        (fun acc kv => dictInsert kv.1 (resolveEntry F p kv.1 kv.2).1 acc) e0 t =
        entryFoldL F p t e0 from fun e0 => rfl]
    rcases List.mem_cons.mp hmem with heq | hmem'
    · cases heq
      have hnot : a ∉ t.map Prod.fst := by
        intro hc
        exact hdist.1 a hc rfl
      rw [lookupA_entryFoldL_not_mem F p t _ a hnot, lookupA_dictInsert_self]
    · exact ih _ hdist.2 hmem'

/-! ## Run-level fold lemmas -/

theorem runFold_keys (F : Fetchers) (l : List Project) (st : RunSt) :
    ((l.foldl (processProject F) st).cat).map Prod.fst =
      insKeys (st.cat.map Prod.fst) (l.map (·.repo)) := by
  induction l generalizing st with
  | nil => rfl
  | cons p t ih =>
    simp only [List.foldl_cons, List.map_cons]
    rw [ih, processProject_keys,
      show ∀ (ks : List String) (r : String) (rs : List String),
        insKeys ks (r :: rs) = insKeys (if r ∈ ks then ks else ks ++ [r]) rs
        from fun _ _ _ => rfl]

theorem runFold_lookup_other (F : Fetchers) (r : String) (l : List Project) (st : RunSt)
    (h : ∀ q ∈ l, q.repo ≠ r) :
    lookupA ((l.foldl (processProject F) st).cat) r = lookupA st.cat r := by
  induction l generalizing st with
  | nil => rfl
  | cons p t ih =>
    simp only [List.foldl_cons]
    rw [ih _ (fun q hq => h q (List.mem_cons_of_mem p hq)),
      processProject_lookup_other F st p r
        (fun hh => h p (List.mem_cons_self p t) hh.symm)]

theorem runFold_lookup_self (F : Fetchers) (l : List Project) (st : RunSt) (p : Project)
    (hdist : l.Pairwise (fun a b => a.repo ≠ b.repo)) (hp : p ∈ l) :
    lookupA ((l.foldl (processProject F) st).cat) p.repo =
      some (entryFoldL F p (F.meta p)
        (dictInsert "name" (nameRes p.repo) (entryOr st.cat p.repo))) := by
  induction l generalizing st with
  | nil => cases hp
  | cons q t ih =>
    rw [List.pairwise_cons] at hdist
    simp only [List.foldl_cons]
    rcases List.mem_cons.mp hp with heq | hmem
    · subst heq
      rw [runFold_lookup_other F p.repo t _ (fun q hq hc => hdist.1 q hq hc.symm),
        processProject_lookup_self]
    · have he : entryOr (processProject F st q).cat p.repo = entryOr st.cat p.repo := by
        unfold entryOr
        rw [processProject_lookup_other F st q p.repo (hdist.1 p hmem).symm]
      rw [ih _ hdist.2 hmem, he]

theorem runFold_log (F : Fetchers) (l : List Project) (st : RunSt) :
    (l.foldl (processProject F) st).log = st.log ++ l.flatMap (projLog F) := by
  induction l generalizing st with
  | nil => simp
  | cons p t ih =>
    simp only [List.foldl_cons, List.flatMap_cons]
    rw [ih, processProject_eq]
    simp [List.append_assoc]

/-! ## The `name` attribute under the network run -/

theorem runFold_name_preserve (F : Fetchers) (r : String) (l : List Project) (st : RunSt)
    (h0 : (lookupA st.cat r).bind (fun e => lookupA e "name") = some (nameRes r))
    (h : ∀ q ∈ l, q.repo = r → "name" ∉ (F.meta q).map Prod.fst) :
    (lookupA ((l.foldl (processProject F) st).cat) r).bind (fun e => lookupA e "name") =
      some (nameRes r) := by
  induction l generalizing st with
  | nil => exact h0
  | cons q t ih =>
    simp only [List.foldl_cons]
    refine ih _ ?_ (fun q' hq' => h q' (List.mem_cons_of_mem q hq'))
    by_cases hq : q.repo = r
    · subst hq
      rw [processProject_lookup_self, Option.some_bind,
        lookupA_entryFoldL_not_mem F q _ _ _ (h q (List.mem_cons_self q t) rfl),
        lookupA_dictInsert_self]
    · rw [processProject_lookup_other F st q r (fun hh => hq hh.symm)]
      exact h0

theorem runFold_name_sets (F : Fetchers) (r : String) (l : List Project) (st : RunSt)
    (hex : ∃ q ∈ l, q.repo = r)
    (h : ∀ q ∈ l, q.repo = r → "name" ∉ (F.meta q).map Prod.fst) :
    (lookupA ((l.foldl (processProject F) st).cat) r).bind (fun e => lookupA e "name") =
      some (nameRes r) := by
  induction l generalizing st with
  | nil => obtain ⟨q, hq, _⟩ := hex; cases hq
  | cons q t ih =>
    simp only [List.foldl_cons]
    by_cases hq : q.repo = r
    · refine runFold_name_preserve F r t _ ?_
        (fun q' hq' => h q' (List.mem_cons_of_mem q hq'))
      subst hq
      rw [processProject_lookup_self, Option.some_bind,
        lookupA_entryFoldL_not_mem F q _ _ _ (h q (List.mem_cons_self q t) rfl),
        lookupA_dictInsert_self]
    · obtain ⟨q', hq', hr⟩ := hex
      rcases List.mem_cons.mp hq' with heq | hmem
      · subst heq
        exact absurd hr hq
      · exact ih _ ⟨q', hmem, hr⟩ (fun q2 hq2 => h q2 (List.mem_cons_of_mem q hq2))

/-! ## The key order -/

theorem lexLE_total : ∀ a b : List Char, lexLE a b = true ∨ lexLE b a = true := by
  intro a
  induction a with
  | nil => intro b; left; rfl
  | cons c cs ih =>
    intro b
    cases b with
    | nil => right; rfl
    | cons d ds =>
      by_cases h : c = d
      · subst h
        simp only [lexLE, if_pos rfl]
        exact ih ds
      · rcases lt_or_gt_of_ne h with hlt | hgt
        · left
          simp [lexLE, h, hlt]
        · right
          simp [lexLE, Ne.symm h, hgt]

theorem lexLE_trans : ∀ a b c : List Char,
    lexLE a b = true → lexLE b c = true → lexLE a c = true := by
  intro a
  induction a with
  | nil => intro b c _ _; rfl
  | cons x xs ih =>
    intro b c hab hbc
    cases b with
    | nil => simp [lexLE] at hab
    | cons y ys =>
      cases c with
      | nil => simp [lexLE] at hbc
      | cons z zs =>
        by_cases hxy : x = y
        · subst hxy
          by_cases hyz : x = z
          · subst hyz
            simp only [lexLE, if_pos rfl] at hab hbc ⊢
            exact ih ys zs hab hbc
          · simp only [lexLE, if_pos rfl] at hab
            simp only [lexLE, if_neg hyz] at hbc ⊢
            exact hbc
        · simp only [lexLE, if_neg hxy, decide_eq_true_eq] at hab
          by_cases hyz : y = z
          · subst hyz
            simp [lexLE, hxy, hab]
          · simp only [lexLE, if_neg hyz, decide_eq_true_eq] at hbc
            have hxz : x < z := lt_trans hab hbc
            simp [lexLE, ne_of_lt hxz, hxz]

theorem insKeys_cons (ks : List String) (r : String) (rs : List String) :
    insKeys ks (r :: rs) = insKeys (if r ∈ ks then ks else ks ++ [r]) rs := rfl

theorem mem_insKeys : ∀ (rs ks : List String) (k : String),
    k ∈ insKeys ks rs ↔ k ∈ ks ∨ k ∈ rs := by
  intro rs
  induction rs with
  | nil => intro ks k; simp [insKeys]
  | cons r rs ih =>
    intro ks k
    rw [insKeys_cons, ih]
    by_cases h : r ∈ ks
    · simp only [if_pos h, List.mem_cons]
      constructor
      · rintro (hk | hk)
        · exact Or.inl hk
        · exact Or.inr (Or.inr hk)
      · rintro (hk | hk | hk)
        · exact Or.inl hk
        · exact Or.inl (hk ▸ h)
        · exact Or.inr hk
    · simp only [if_neg h, List.mem_append, List.mem_singleton, List.mem_cons]
      tauto

theorem insKeys_pairwise {R : String → String → Prop} : ∀ (rs ks : List String),
    ks.Pairwise R → rs.Pairwise R → (∀ k ∈ ks, ∀ x ∈ rs, R k x) →
    (insKeys ks rs).Pairwise R := by
  intro rs
  induction rs with
  | nil => intro ks hks _ _; exact hks
  | cons r rs ih =>
    intro ks hks hrs hcross
    rw [List.pairwise_cons] at hrs
    rw [insKeys_cons]
    refine ih _ ?_ hrs.2 ?_
    · by_cases h : r ∈ ks
      · simpa [h] using hks
      · rw [if_neg h, List.pairwise_append]
        exact ⟨hks, List.pairwise_singleton R r,
          fun k hk x hx => (List.mem_singleton.mp hx) ▸ hcross k hk r (List.mem_cons_self r rs)⟩
    · intro k hk x hx
      by_cases h : r ∈ ks
      · rw [if_pos h] at hk
        exact hcross k hk x (List.mem_cons_of_mem r hx)
      · rw [if_neg h, List.mem_append, List.mem_singleton] at hk
        rcases hk with hk | hk
        · exact hcross k hk x (List.mem_cons_of_mem r hx)
        · exact hk ▸ hrs.1 x hx

/-! ## Conversions between the run state and the JSON catalog -/

theorem toList_ofList (l : List (String × Json)) : (JsonMembers.ofList l).toList = l := by
  induction l with
  | nil => rfl
  | cons kv t ih =>
    obtain ⟨k, v⟩ := kv
    simp [JsonMembers.ofList, JsonMembers.toList, ih]

theorem lookupA_map_value {β γ : Type} (g : β → γ) (l : List (String × β)) (k : String) :
    lookupA (l.map (fun kv => (kv.1, g kv.2))) k = (lookupA l k).map g := by
  induction l with
  | nil => rfl
  | cons kv t ih =>
    obtain ⟨k0, v0⟩ := kv
    by_cases h : k0 = k
    · simp [lookupA, h]
    · simp [lookupA, h, ih]

theorem keys_map_value {β γ : Type} (g : β → γ) (l : List (String × β)) :
    (l.map (fun kv => (kv.1, g kv.2))).map Prod.fst = l.map Prod.fst := by
  induction l with
  | nil => rfl
  | cons kv t ih => simp [ih]

theorem objLookup_netToJson (cat : NetCat) (r : String) :
    objLookup (netToJson cat) r =
      (lookupA cat r).map (fun e => Json.obj (JsonMembers.ofList e)) := by
  simp only [netToJson, objLookup]
  rw [toList_ofList]
  exact lookupA_map_value (fun e => Json.obj (JsonMembers.ofList e)) cat r

theorem jsonKeys_netToJson (cat : NetCat) : jsonKeys (netToJson cat) = cat.map Prod.fst := by
  simp only [netToJson, jsonKeys]
  rw [toList_ofList]
  exact keys_map_value (fun e => Json.obj (JsonMembers.ofList e)) cat

theorem objLookup_ofList (e : List (String × Json)) (a : String) :
    objLookup (Json.obj (JsonMembers.ofList e)) a = lookupA e a := by
  simp only [objLookup]
  rw [toList_ofList]

/-! ## The two shapes of `load_catalog` -/

theorem load_catalog_network_eq (F : Fetchers) (t : String) (cb : CatalogBuilder)
    (hdev : cb.develop = false) :
    CatalogBuilder.load_catalog F t cb =
      .ok ({ cb with
          catalog := netToJson
            (runNetwork F cb.projects (RunSt.mk (jsonToNet cb.catalog) cb.repos [])).cat,
          repos := (runNetwork F cb.projects (RunSt.mk (jsonToNet cb.catalog) cb.repos [])).repos },
        (runNetwork F cb.projects (RunSt.mk (jsonToNet cb.catalog) cb.repos [])).log) := by
  simp [CatalogBuilder.load_catalog, hdev]

theorem load_catalog_replay_eq (F : Fetchers) (t : String) (cb : CatalogBuilder) (j : Json)
    (hdev : cb.develop = true) (hp : parseJsonText t = some j) :
    CatalogBuilder.load_catalog F t cb =
      .ok ({ cb with
          catalog := j,
          repos := cb.projects.foldl (fun r p => dictInsert p.repo (repoUrlOf p) r) cb.repos },
        ["Develop mode. Loading Catalog from catalog.json", "Catalog Loaded"]) := by
  simp [CatalogBuilder.load_catalog, hdev, hp]

theorem objLookup_bind_netToJson (cat : NetCat) (r a : String) :
    (objLookup (netToJson cat) r).bind (fun e => objLookup e a) =
      (lookupA cat r).bind (fun e => lookupA e a) := by
  rw [objLookup_netToJson]
  cases lookupA cat r with
  | none => rfl
  | some e => simp [objLookup_ofList]

theorem mem_projLogL (F : Fetchers) (p : Project) :
    ∀ (meta : List (String × AttrConfig)) (attr : String) (cfg : AttrConfig),
    (attr, cfg) ∈ meta → ∀ x ∈ (resolveEntry F p attr cfg).2, x ∈ projLogL F p meta := by
  intro meta
  induction meta with
  | nil => intro _ _ h; cases h
  | cons kv tl ih =>
    intro attr cfg hmem x hx
    rw [projLogL_cons]
    rcases List.mem_cons.mp hmem with heq | hm
    · cases heq
      exact List.mem_append_left _ hx
    · exact List.mem_append_right _ (ih attr cfg hm x hx)

theorem foldl_dictInsert_repos : ∀ (l : List Project) (acc : List (String × String)),
    l.Pairwise (fun a b => a.repo ≠ b.repo) → (∀ p ∈ l, p.repo ∉ acc.map Prod.fst) →
    l.foldl (fun r p => dictInsert p.repo (repoUrlOf p) r) acc =
      acc ++ l.map (fun p => (p.repo, repoUrlOf p)) := by
  intro l
  induction l with
  | nil => intro acc _ _; simp
  | cons p tl ih =>
    intro acc hdist hfresh
    rw [List.pairwise_cons] at hdist
    simp only [List.foldl_cons, List.map_cons]
    rw [dictInsert_of_notMem _ _ _ (hfresh p (List.mem_cons_self p tl)), ih _ hdist.2]
    · simp
    · intro q hq
      rw [List.map_append, List.mem_append]
      push_neg
      refine ⟨hfresh q (List.mem_cons_of_mem p hq), ?_⟩
      simp only [List.map_cons, List.map_nil, List.mem_singleton]
      exact fun hc => (hdist.1 q hq) hc.symm

/-! ## C1: the injected `name` attribute -/

/-- Counterexample for C1 as stated: the claim asserts the `name`
attribute survives "regardless of the contents of the project's fetched
descriptor document", but a descriptor that itself contains an
attribute named `name` overwrites it in the attribute loop. With the
descriptor `{"name": {"type": "html", "source": "x", "data": "y"}}` for
project `r`, the final `name` attribute is
`{"source": "x", "value": "y"}`, not `{"value": "r", "source": ""}`. -/
theorem name_attribute_cex :
    ∃ cb' log,
      CatalogBuilder.load_catalog
        (Fetchers.mk (fun _ => [("name", AttrConfig.mk "html" (some "x") (some "y") none none)])
          (fun _ _ => ""))
        ""
        (CatalogBuilder.mk [Project.mk "o" "r" "b"] (Json.obj .nil) [] false) =
        .ok (cb', log) ∧
      (objLookup cb'.catalog "r").bind (fun e => objLookup e "name") =
        some (.obj (.cons "source" (.str "x") (.cons "value" (.str "y") .nil))) ∧
      (objLookup cb'.catalog "r").bind (fun e => objLookup e "name") ≠
        some (.obj (.cons "value" (.str "r") (.cons "source" (.str "") .nil))) := by
  refine ⟨_, _, rfl, ?_, ?_⟩ <;> decide

/-- C1 (amended). In network mode, every processed project's catalog
entry contains a `name` attribute whose `value` is the project's
repository name and whose `source` is the empty string, provided no
fetched descriptor of a project with that repository name contains an
attribute named `name` (the unamended claim fails: see the
counterexample). -/
theorem name_attribute_amended (F : Fetchers) (t : String) (cb : CatalogBuilder) (p : Project)
    (hdev : cb.develop = false) (hp : p ∈ cb.projects)
    (hname : ∀ q ∈ cb.projects, q.repo = p.repo → "name" ∉ (F.meta q).map Prod.fst) :
    ∃ cb' log, CatalogBuilder.load_catalog F t cb = .ok (cb', log) ∧
      (objLookup cb'.catalog p.repo).bind (fun e => objLookup e "name") =
        some (.obj (.cons "value" (.str p.repo) (.cons "source" (.str "") .nil))) := by
  refine ⟨_, _, load_catalog_network_eq F t cb hdev, ?_⟩
  rw [objLookup_bind_netToJson]
  show (lookupA ((sortProjects cb.projects).foldl (processProject F)
      (RunSt.mk (jsonToNet cb.catalog) cb.repos [])).cat p.repo).bind
      (fun e => lookupA e "name") = _
  rw [runFold_name_sets F p.repo (sortProjects cb.projects) _
    ⟨p, (List.mem_insertionSort projLE).mpr hp, rfl⟩
    (fun q hq hr => hname q ((List.mem_insertionSort projLE).mp hq) hr)]
  rfl

/-- Witness for the amended C1: one project `r` whose descriptor has a
single (non-`name`) attribute. -/
theorem name_attribute_amended_witness :
    ∃ cb' log,
      CatalogBuilder.load_catalog
        (Fetchers.mk (fun _ => [("overview", AttrConfig.mk "html" (some "s") (some "d") none none)])
          (fun _ _ => ""))
        ""
        (CatalogBuilder.mk [Project.mk "o" "r" "b"] (Json.obj .nil) [] false) =
        .ok (cb', log) ∧
      (objLookup cb'.catalog "r").bind (fun e => objLookup e "name") =
        some (.obj (.cons "value" (.str "r") (.cons "source" (.str "") .nil))) :=
  name_attribute_amended
    (Fetchers.mk (fun _ => [("overview", AttrConfig.mk "html" (some "s") (some "d") none none)])
      (fun _ _ => ""))
    ""
    (CatalogBuilder.mk [Project.mk "o" "r" "b"] (Json.obj .nil) [] false)
    (Project.mk "o" "r" "b") rfl (by decide) (by decide)

/-! ## C2: catalog key order in network mode -/

/-- C2. In network mode the catalog keys come out sorted in the
case-insensitive (upper-cased) lexicographic order of repository names,
and are exactly the repository names of the project list. -/
theorem catalog_key_order (F : Fetchers) (t : String) (cb : CatalogBuilder)
    (hdev : cb.develop = false) (hcat : cb.catalog = Json.obj JsonMembers.nil) :
    ∃ cb' log, CatalogBuilder.load_catalog F t cb = .ok (cb', log) ∧
      (jsonKeys cb'.catalog).Pairwise strUpLE ∧
      (∀ k, k ∈ jsonKeys cb'.catalog ↔ k ∈ cb.projects.map (fun q => q.repo)) := by
  haveI : IsTrans Project projLE := ⟨fun a b c hab hbc => lexLE_trans _ _ _ hab hbc⟩
  haveI : IsTotal Project projLE := ⟨fun a b => lexLE_total _ _⟩
  refine ⟨_, _, load_catalog_network_eq F t cb hdev, ?_, ?_⟩
  · rw [jsonKeys_netToJson]
    show (((sortProjects cb.projects).foldl (processProject F)
      (RunSt.mk (jsonToNet cb.catalog) cb.repos [])).cat.map Prod.fst).Pairwise strUpLE
    rw [runFold_keys, hcat]
    show (insKeys ([] : List String) ((sortProjects cb.projects).map (fun q => q.repo))).Pairwise
      strUpLE
    have hsorted : List.Pairwise projLE (sortProjects cb.projects) :=
      List.sorted_insertionSort projLE cb.projects
    refine insKeys_pairwise _ _ List.Pairwise.nil ?_ (by intro k hk; cases hk)
    refine List.Pairwise.map (fun q : Project => q.repo) ?_ hsorted
    intro a b h
    exact h
  · intro k
    rw [jsonKeys_netToJson]
    show k ∈ ((sortProjects cb.projects).foldl (processProject F)
      (RunSt.mk (jsonToNet cb.catalog) cb.repos [])).cat.map Prod.fst ↔ _
    rw [runFold_keys, hcat]
    show k ∈ insKeys ([] : List String) ((sortProjects cb.projects).map (fun q => q.repo)) ↔ _
    rw [mem_insKeys]
    simp only [List.mem_nil_iff, false_or, List.mem_map]
    constructor
    · rintro ⟨q, hq, hk⟩
      exact ⟨q, (List.mem_insertionSort projLE).mp hq, hk⟩
    · rintro ⟨q, hq, hk⟩
      exact ⟨q, (List.mem_insertionSort projLE).mpr hq, hk⟩

/-- Witness for C2 at the spec's example: projects named
`zeta, Alpha, beta` produce catalog keys in the order
`Alpha, beta, zeta`. -/
theorem catalog_key_order_witness :
    (∃ cb' log,
      CatalogBuilder.load_catalog (Fetchers.mk (fun _ => []) (fun _ _ => "")) ""
        (CatalogBuilder.mk
          [Project.mk "o1" "zeta" "m", Project.mk "o2" "Alpha" "m", Project.mk "o3" "beta" "m"]
          (Json.obj .nil) [] false) = .ok (cb', log) ∧
      (jsonKeys cb'.catalog).Pairwise strUpLE ∧
      (∀ k, k ∈ jsonKeys cb'.catalog ↔
        k ∈ [Project.mk "o1" "zeta" "m", Project.mk "o2" "Alpha" "m",
          Project.mk "o3" "beta" "m"].map (fun q => q.repo))) ∧
    (∃ cb' log,
      CatalogBuilder.load_catalog (Fetchers.mk (fun _ => []) (fun _ _ => "")) ""
        (CatalogBuilder.mk
          [Project.mk "o1" "zeta" "m", Project.mk "o2" "Alpha" "m", Project.mk "o3" "beta" "m"]
          (Json.obj .nil) [] false) = .ok (cb', log) ∧
      jsonKeys cb'.catalog = ["Alpha", "beta", "zeta"]) := by
  constructor
  · exact catalog_key_order (Fetchers.mk (fun _ => []) (fun _ _ => "")) ""
      (CatalogBuilder.mk
        [Project.mk "o1" "zeta" "m", Project.mk "o2" "Alpha" "m", Project.mk "o3" "beta" "m"]
        (Json.obj .nil) [] false) rfl rfl
  · exact ⟨_, _, rfl, by decide⟩

/-! ## C4: unrecognized attribute types are non-fatal -/

/-- C4. In network mode, an attribute descriptor whose `type` is
neither `github_file` nor `html` is recorded as
`{"source": null, "value": null}`, the diagnostic message naming the
project, attribute and descriptor is printed, and processing continues:
every attribute of the project's descriptor is recorded, and every
project of the run has a catalog entry. (Repository names and the
descriptor's keys are pairwise distinct, as they are in the Python
dicts they come from.) -/
theorem unrecognized_type_nonfatal (F : Fetchers) (t : String) (cb : CatalogBuilder)
    (p : Project) (attr : String) (cfg : AttrConfig)
    (hdev : cb.develop = false) (hcat : cb.catalog = Json.obj JsonMembers.nil)
    (hdist : cb.projects.Pairwise (fun a b => a.repo ≠ b.repo))
    (hp : p ∈ cb.projects)
    (hkeys : ((F.meta p).map Prod.fst).Pairwise (fun a b => a ≠ b))
    (hmem : (attr, cfg) ∈ F.meta p)
    (h1 : cfg.type ≠ "github_file") (h2 : cfg.type ≠ "html") :
    ∃ cb' log, CatalogBuilder.load_catalog F t cb = .ok (cb', log) ∧
      (objLookup cb'.catalog p.repo).bind (fun e => objLookup e attr) =
        some (.obj (.cons "source" Json.null (.cons "value" Json.null .nil))) ∧
      missingMsg p attr cfg ∈ log ∧
      (∀ a2 c2, (a2, c2) ∈ F.meta p →
        ∃ v, (objLookup cb'.catalog p.repo).bind (fun e => objLookup e a2) = some v) ∧
      (∀ q ∈ cb.projects, ∃ e, objLookup cb'.catalog q.repo = some e) := by
  have hdist' : (sortProjects cb.projects).Pairwise (fun a b => a.repo ≠ b.repo) :=
    ((List.perm_insertionSort projLE cb.projects).pairwise_iff
      (fun h => Ne.symm h)).mpr hdist
  have he0 : entryOr (jsonToNet cb.catalog) p.repo = [] := by rw [hcat]; rfl
  have hlook : ∀ q : Project, q ∈ cb.projects →
      lookupA ((sortProjects cb.projects).foldl (processProject F)
        (RunSt.mk (jsonToNet cb.catalog) cb.repos [])).cat q.repo =
      some (entryFoldL F q (F.meta q)
        (dictInsert "name" (nameRes q.repo) (entryOr (jsonToNet cb.catalog) q.repo))) :=
    fun q hq => runFold_lookup_self F _ _ q hdist' ((List.mem_insertionSort projLE).mpr hq)
  refine ⟨_, _, load_catalog_network_eq F t cb hdev, ?_, ?_, ?_, ?_⟩
  · rw [objLookup_bind_netToJson]
    show (lookupA ((sortProjects cb.projects).foldl (processProject F)
      (RunSt.mk (jsonToNet cb.catalog) cb.repos [])).cat p.repo).bind
      (fun e => lookupA e attr) = _
    rw [hlook p hp, Option.some_bind, he0,
      lookupA_entryFoldL_mem F p (F.meta p) _ attr cfg hkeys hmem]
    simp [resolveEntry, h1, h2]
  · show missingMsg p attr cfg ∈ ((sortProjects cb.projects).foldl (processProject F)
      (RunSt.mk (jsonToNet cb.catalog) cb.repos [])).log
    rw [runFold_log]
    refine List.mem_append_right _ ?_
    refine List.mem_flatMap_of_mem ((List.mem_insertionSort projLE).mpr hp) ?_
    refine mem_projLogL F p (F.meta p) attr cfg hmem _ ?_
    simp [resolveEntry, h1, h2]
  · intro a2 c2 hm2
    rw [objLookup_bind_netToJson]
    show ∃ v, (lookupA ((sortProjects cb.projects).foldl (processProject F)
      (RunSt.mk (jsonToNet cb.catalog) cb.repos [])).cat p.repo).bind
      (fun e => lookupA e a2) = some v
    rw [hlook p hp, Option.some_bind,
      lookupA_entryFoldL_mem F p (F.meta p) _ a2 c2 hkeys hm2]
    exact ⟨_, rfl⟩
  · intro q hq
    rw [objLookup_netToJson]
    show ∃ e, (lookupA ((sortProjects cb.projects).foldl (processProject F)
      (RunSt.mk (jsonToNet cb.catalog) cb.repos [])).cat q.repo).map
      (fun e => Json.obj (JsonMembers.ofList e)) = some e
    rw [hlook q hq]
    exact ⟨_, rfl⟩

/-- Witness for C4: a project whose descriptor holds an unrecognized
attribute followed by a recognized one. -/
theorem unrecognized_type_nonfatal_witness :
    ∃ cb' log,
      CatalogBuilder.load_catalog
        (Fetchers.mk
          (fun _ => [("weird", AttrConfig.mk "unknown" none none none none),
                     ("overview", AttrConfig.mk "html" (some "s") (some "d") none none)])
          (fun _ _ => ""))
        ""
        (CatalogBuilder.mk [Project.mk "o" "r" "b"] (Json.obj .nil) [] false) =
        .ok (cb', log) ∧
      (objLookup cb'.catalog "r").bind (fun e => objLookup e "weird") =
        some (.obj (.cons "source" Json.null (.cons "value" Json.null .nil))) ∧
      missingMsg (Project.mk "o" "r" "b") "weird" (AttrConfig.mk "unknown" none none none none) ∈
        log ∧
      (∀ a2 c2, (a2, c2) ∈
          [("weird", AttrConfig.mk "unknown" none none none none),
           ("overview", AttrConfig.mk "html" (some "s") (some "d") none none)] →
        ∃ v, (objLookup cb'.catalog "r").bind (fun e => objLookup e a2) = some v) ∧
      (∀ q ∈ [Project.mk "o" "r" "b"], ∃ e, objLookup cb'.catalog q.repo = some e) :=
  unrecognized_type_nonfatal
    (Fetchers.mk
      (fun _ => [("weird", AttrConfig.mk "unknown" none none none none),
                 ("overview", AttrConfig.mk "html" (some "s") (some "d") none none)])
      (fun _ _ => ""))
    ""
    (CatalogBuilder.mk [Project.mk "o" "r" "b"] (Json.obj .nil) [] false)
    (Project.mk "o" "r" "b") "weird" (AttrConfig.mk "unknown" none none none none)
    rfl rfl (by decide) (by decide) (by decide) (by decide) (by decide) (by decide)

/-! ## C6: the repo link table after a replay run -/

/-- C6. After a replay-mode `load_catalog` over projects with pairwise
distinct repository names, the repo link table holds exactly one entry
per project, in list order, each equal to
`https://github.com/{org}/{repo}`. -/
theorem replay_repo_links (F : Fetchers) (t : String) (cb : CatalogBuilder) (j : Json)
    (hdev : cb.develop = true) (hrepos : cb.repos = [])
    (hdist : cb.projects.Pairwise (fun a b => a.repo ≠ b.repo))
    (hp : parseJsonText t = some j) :
    ∃ cb' log, CatalogBuilder.load_catalog F t cb = .ok (cb', log) ∧
      cb'.repos = cb.projects.map
        (fun p => (p.repo, "https://github.com/" ++ p.org ++ "/" ++ p.repo)) := by
  refine ⟨_, _, load_catalog_replay_eq F t cb j hdev hp, ?_⟩
  show cb.projects.foldl (fun r p => dictInsert p.repo (repoUrlOf p) r) cb.repos = _
  rw [hrepos, foldl_dictInsert_repos cb.projects [] hdist (by intro q _ hq; cases hq)]
  rfl

/-- Witness for C6: two distinct projects replayed from the catalog
text `{}`. -/
theorem replay_repo_links_witness :
    ∃ cb' log,
      CatalogBuilder.load_catalog (Fetchers.mk (fun _ => []) (fun _ _ => "")) "\x7b\x7d"
        (CatalogBuilder.mk [Project.mk "o1" "alpha" "m", Project.mk "o2" "beta" "m"]
          (Json.obj .nil) [] true) = .ok (cb', log) ∧
      cb'.repos = [Project.mk "o1" "alpha" "m", Project.mk "o2" "beta" "m"].map
        (fun p => (p.repo, "https://github.com/" ++ p.org ++ "/" ++ p.repo)) :=
  replay_repo_links (Fetchers.mk (fun _ => []) (fun _ _ => "")) "\x7b\x7d"
    (CatalogBuilder.mk [Project.mk "o1" "alpha" "m", Project.mk "o2" "beta" "m"]
      (Json.obj .nil) [] true)
    (Json.obj .nil) rfl rfl (by decide) (by decide)

/-! ## C10: replay mode loads the file verbatim -/

/-- C10. In replay mode `load_catalog` sets the catalog to exactly the
deserialized content of the file: no normalization, validation, or
injection of a `name` attribute happens. -/
theorem replay_exact_content (F : Fetchers) (t : String) (cb : CatalogBuilder) (j : Json)
    (hdev : cb.develop = true) (hp : parseJsonText t = some j) :
    ∃ cb' log, CatalogBuilder.load_catalog F t cb = .ok (cb', log) ∧ cb'.catalog = j :=
  ⟨_, _, load_catalog_replay_eq F t cb j hdev hp, rfl⟩

/-- Witness for C10: a catalog file whose only entry lacks a `name`
attribute still lacks it after loading. -/
theorem replay_exact_content_witness :
    parseJsonText "\x7b\"proj\": \x7b\x7d\x7d" =
      some (Json.obj (.cons "proj" (Json.obj .nil) .nil)) ∧
    (∃ cb' log,
      CatalogBuilder.load_catalog (Fetchers.mk (fun _ => []) (fun _ _ => ""))
        "\x7b\"proj\": \x7b\x7d\x7d"
        (CatalogBuilder.mk [] (Json.obj .nil) [] true) = .ok (cb', log) ∧
      cb'.catalog = Json.obj (.cons "proj" (Json.obj .nil) .nil)) ∧
    (objLookup (Json.obj (.cons "proj" (Json.obj .nil) .nil)) "proj").bind
      (fun e => objLookup e "name") = none := by
  refine ⟨by decide, ?_, by decide⟩
  exact replay_exact_content (Fetchers.mk (fun _ => []) (fun _ _ => ""))
    "\x7b\"proj\": \x7b\x7d\x7d" (CatalogBuilder.mk [] (Json.obj .nil) [] true)
    (Json.obj (.cons "proj" (Json.obj .nil) .nil)) rfl (by decide)

/-! ## The JSON round trip: step lemmas for the parser -/

theorem parseValue_null (f : Nat) (r : List Char) :
    parseValue (f + 1) ('n' :: 'u' :: 'l' :: 'l' :: r) = some (.null, r) := rfl

theorem parseValue_quote (f : Nat) (r : List Char) :
    parseValue (f + 1) ('"' :: r) =
      match parseStrAux (r.length + 1) [] r with
      | some (s, r2) => some (.str s, r2)
      | none => none := rfl

theorem parseValue_open (f : Nat) (r : List Char) :
    parseValue (f + 1) ('\x7b' :: r) =
      match skipWs r with
      | '\x7d' :: r2 => some (.obj .nil, r2)
      | other => parseMembers f other [] := rfl

theorem parseMembers_quote (f : Nat) (r : List Char) (acc : List (String × Json)) :
    parseMembers (f + 1) ('"' :: r) acc =
      match parseStrAux (r.length + 1) [] r with
      | some (key, r1) =>
        match skipWs r1 with
        | ':' :: r2 =>
          match parseValue f r2 with
          | some (v, r3) =>
            match skipWs r3 with
            | ',' :: r4 => parseMembers f r4 (acc ++ [(key, v)])
            | '\x7d' :: r4 => some (.obj (JsonMembers.ofList (acc ++ [(key, v)])), r4)
            | _ => none
          | none => none
        | _ => none
      | none => none := rfl

theorem skipWs_cons_ws (c : Char) (x : List Char) (h : isWsChar c = true) :
    skipWs (c :: x) = skipWs x := by simp [skipWs, h]

theorem skipWs_cons_not (c : Char) (x : List Char) (h : isWsChar c = false) :
    skipWs (c :: x) = c :: x := by simp [skipWs, h]

theorem skipWs_replicate (m : Nat) (x : List Char) :
    skipWs (List.replicate m ' ' ++ x) = skipWs x := by
  induction m with
  | zero => rfl
  | succ n ih => simpa [List.replicate, skipWs, isWsChar] using ih

theorem skipWs_pad (l : Nat) (x : List Char) : skipWs (pad l ++ x) = skipWs x :=
  skipWs_replicate (4 * l) x

theorem skipWs_idem (x : List Char) : skipWs (skipWs x) = skipWs x := by
  induction x with
  | nil => rfl
  | cons c r ih =>
    by_cases h : isWsChar c = true
    · rw [skipWs_cons_ws c r h, ih]
    · rw [skipWs_cons_not c r (by simpa using h), skipWs_cons_not c r (by simpa using h)]

theorem parseValue_wschar (fuel : Nat) (c : Char) (x : List Char) (h : isWsChar c = true) :
    parseValue fuel (c :: x) = parseValue fuel x := by
  cases fuel with
  | zero => rfl
  | succ f => simp only [parseValue]; rw [skipWs_cons_ws c x h]

theorem parseMembers_wschar (fuel : Nat) (c : Char) (x : List Char)
    (acc : List (String × Json)) (h : isWsChar c = true) :
    parseMembers fuel (c :: x) acc = parseMembers fuel x acc := by
  cases fuel with
  | zero => rfl
  | succ f => simp only [parseMembers]; rw [skipWs_cons_ws c x h]

theorem parseMembers_skipWs (fuel : Nat) (x : List Char) (acc : List (String × Json)) :
    parseMembers fuel (skipWs x) acc = parseMembers fuel x acc := by
  cases fuel with
  | zero => rfl
  | succ f => simp only [parseMembers]; rw [skipWs_idem]

theorem escChar_length_pos (c : Char) : 1 ≤ (escChar c).length := by
  unfold escChar
  split_ifs <;> simp [hex4]

theorem escStr_length_ge : ∀ l : List Char, l.length ≤ (escStr l).length := by
  intro l
  induction l with
  | nil => simp [escStr]
  | cons c t ih =>
    have := escChar_length_pos c
    simp only [escStr, List.length_append, List.length_cons]
    omega

theorem hexDigit?_hexDigitChar : ∀ d : Nat, d < 16 → hexDigit? (hexDigitChar d) = some d := by
  decide

theorem parseStrAux_quote (f : Nat) (acc r : List Char) :
    parseStrAux (f + 1) acc ('"' :: r) = some (String.mk acc, r) := rfl

theorem parseStrAux_u_bmp (f : Nat) (acc : List Char) (n : Nat) (r : List Char)
    (hn : n < 0x10000) (hlo : ¬(0xd800 ≤ n ∧ n ≤ 0xdbff)) (hhi : ¬(0xdc00 ≤ n ∧ n ≤ 0xdfff)) :
    parseStrAux (f + 1) acc (('\\' :: 'u' :: hex4 n) ++ r) =
      parseStrAux f (acc ++ [Char.ofNat n]) r := by
  simp only [hex4, List.cons_append, List.nil_append]
  simp only [parseStrAux]
  rw [hexDigit?_hexDigitChar (n / 4096 % 16) (by omega),
    hexDigit?_hexDigitChar (n / 256 % 16) (by omega),
    hexDigit?_hexDigitChar (n / 16 % 16) (by omega),
    hexDigit?_hexDigitChar (n % 16) (by omega)]
  have hrec : 4096 * (n / 4096 % 16) + 256 * (n / 256 % 16) + 16 * (n / 16 % 16) + n % 16 = n := by
    omega
  simp only [hrec, if_neg hlo, if_neg hhi]
  simp

theorem parseStrAux_u_pair (f : Nat) (acc : List Char) (n m : Nat) (r : List Char)
    (h1 : 0xd800 ≤ n ∧ n ≤ 0xdbff) (h2 : 0xdc00 ≤ m ∧ m ≤ 0xdfff) :
    parseStrAux (f + 1) acc (('\\' :: 'u' :: hex4 n) ++ (('\\' :: 'u' :: hex4 m) ++ r)) =
      parseStrAux f (acc ++ [Char.ofNat (0x10000 + (n - 0xd800) * 1024 + (m - 0xdc00))]) r := by
  simp only [hex4, List.cons_append, List.nil_append]
  simp only [parseStrAux]
  rw [hexDigit?_hexDigitChar (n / 4096 % 16) (by omega),
    hexDigit?_hexDigitChar (n / 256 % 16) (by omega),
    hexDigit?_hexDigitChar (n / 16 % 16) (by omega),
    hexDigit?_hexDigitChar (n % 16) (by omega)]
  have hrecn :
      4096 * (n / 4096 % 16) + 256 * (n / 256 % 16) + 16 * (n / 16 % 16) + n % 16 = n := by
    omega
  simp only [hrecn, if_pos h1]
  simp only [show (('\\' : Char) = '"') = False by simp, show (('u' : Char) = '"') = False by simp]
  rw [hexDigit?_hexDigitChar (m / 4096 % 16) (by omega),
    hexDigit?_hexDigitChar (m / 256 % 16) (by omega),
    hexDigit?_hexDigitChar (m / 16 % 16) (by omega),
    hexDigit?_hexDigitChar (m % 16) (by omega)]
  have hrecm :
      4096 * (m / 4096 % 16) + 256 * (m / 256 % 16) + 16 * (m / 16 % 16) + m % 16 = m := by
    omega
  simp only [hrecm]
  simp [if_pos h2]

theorem parseStrAux_escChar_step (f : Nat) (acc : List Char) (c : Char) (r : List Char) :
    parseStrAux (f + 1) acc (escChar c ++ r) = parseStrAux f (acc ++ [c]) r := by
  have hval : c.toNat < 0xd800 ∨ (0xdfff < c.toNat ∧ c.toNat < 0x110000) := c.valid
  by_cases h1 : c = '"'
  · subst h1; rfl
  by_cases h2 : c = '\\'
  · subst h2; rfl
  by_cases h3 : c = '\x08'
  · subst h3; rfl
  by_cases h4 : c = '\x0c'
  · subst h4; rfl
  by_cases h5 : c = '\n'
  · subst h5; rfl
  by_cases h6 : c = '\r'
  · subst h6; rfl
  by_cases h7 : c = '\t'
  · subst h7; rfl
  by_cases h8 : 0x20 ≤ c.toNat ∧ c.toNat ≤ 0x7e
  · have hesc : escChar c = [c] := by
      unfold escChar
      rw [if_neg h1, if_neg h2, if_neg h3, if_neg h4, if_neg h5, if_neg h6, if_neg h7, if_pos h8]
    rw [hesc]
    show parseStrAux (f + 1) acc (c :: r) = _
    simp only [parseStrAux, if_neg h1, if_neg h2, if_pos h8.1]
  by_cases h9 : c.toNat < 0x10000
  · have hesc : escChar c = '\\' :: 'u' :: hex4 c.toNat := by
      unfold escChar
      rw [if_neg h1, if_neg h2, if_neg h3, if_neg h4, if_neg h5, if_neg h6, if_neg h7,
        if_neg h8, if_pos h9]
    rw [hesc,
      show ('\\' :: 'u' :: hex4 c.toNat) ++ r = ('\\' :: 'u' :: hex4 c.toNat) ++ r from rfl,
      parseStrAux_u_bmp f acc c.toNat r h9 (by omega) (by omega), Char.ofNat_toNat]
  · have hesc : escChar c =
        ('\\' :: 'u' :: hex4 (0xd800 + (c.toNat - 0x10000) / 1024)) ++
        ('\\' :: 'u' :: hex4 (0xdc00 + (c.toNat - 0x10000) % 1024)) := by
      unfold escChar
      rw [if_neg h1, if_neg h2, if_neg h3, if_neg h4, if_neg h5, if_neg h6, if_neg h7,
        if_neg h8, if_neg h9]
    rw [hesc, List.append_assoc,
      parseStrAux_u_pair f acc _ _ r ⟨by omega, by omega⟩ ⟨by omega, by omega⟩]
    have harith : 0x10000 + (0xd800 + (c.toNat - 0x10000) / 1024 - 0xd800) * 1024 +
        (0xdc00 + (c.toNat - 0x10000) % 1024 - 0xdc00) = c.toNat := by
      omega
    rw [harith, Char.ofNat_toNat]

theorem parseStrAux_escStr : ∀ (l : List Char) (f : Nat), l.length + 1 ≤ f →
    ∀ (acc rest : List Char),
    parseStrAux f acc (escStr l ++ '"' :: rest) = some (String.mk (acc ++ l), rest) := by
  intro l
  induction l with
  | nil =>
    intro f hf acc rest
    obtain ⟨f', rfl⟩ : ∃ f', f = f' + 1 := ⟨f - 1, by omega⟩
    simp [escStr, parseStrAux_quote]
  | cons c cs ih =>
    intro f hf acc rest
    obtain ⟨f', rfl⟩ : ∃ f', f = f' + 1 := ⟨f - 1, by omega⟩
    simp only [escStr, List.append_assoc]
    rw [parseStrAux_escChar_step f' acc c (escStr cs ++ '"' :: rest),
      ih f' (by simpa using hf) (acc ++ [c]) rest]
    simp

theorem consList_snoc : ∀ (acc : List (String × Json)) (k : String) (v : Json)
    (ms : JsonMembers),
    JsonMembers.consList (acc ++ [(k, v)]) ms = JsonMembers.consList acc (.cons k v ms) := by
  intro acc
  induction acc with
  | nil => intro k v ms; rfl
  | cons kv t ih =>
    intro k v ms
    obtain ⟨k0, v0⟩ := kv
    simp [JsonMembers.consList, ih]

theorem ofList_eq_consList (l : List (String × Json)) :
    JsonMembers.ofList l = JsonMembers.consList l .nil := by
  induction l with
  | nil => rfl
  | cons kv t ih =>
    obtain ⟨k0, v0⟩ := kv
    simp [JsonMembers.ofList, JsonMembers.consList, ih]

theorem sizeJ_pos (j : Json) : 1 ≤ sizeJ j := by
  cases j <;> simp [sizeJ]

theorem sizeM_pos (ms : JsonMembers) : 1 ≤ sizeM ms := by
  cases ms with
  | nil => simp [sizeM]
  | cons k v t => simp [sizeM]; omega


theorem dumpMembers_cons_shape (k : String) (v : Json) (t : JsonMembers) (l : Nat) :
    dumpMembers (.cons k v t) l =
      pad l ++ ('"' :: (escStr k.data ++ ('"' :: ':' :: ' ' :: (dumpVal v l ++ dmTail t l)))) := by
  cases t <;> simp [dumpMembers, dmTail, List.append_assoc]

theorem dumpMembers_chain (k : String) (v : Json) (t : JsonMembers) (l : Nat)
    (rest : List Char) :
    dumpMembers (.cons k v t) l ++ rest =
      pad l ++ ('"' :: (escStr k.data ++ ('"' :: ':' :: ' ' ::
        (dumpVal v l ++ (dmTail t l ++ rest))))) := by
  rw [dumpMembers_cons_shape]
  simp [List.append_assoc]

theorem parse_dump_aux : ∀ fuel : Nat,
    (∀ (j : Json) (level : Nat) (rest : List Char), sizeJ j ≤ fuel →
      parseValue fuel (dumpVal j level ++ rest) = some (j, rest)) ∧
    (∀ (ms : JsonMembers) (l : Nat) (acc : List (String × Json)) (rest : List Char),
      sizeM ms ≤ fuel → ms ≠ .nil →
      parseMembers fuel (dumpMembers ms l ++ rest) acc =
        some (.obj (JsonMembers.consList acc ms), rest)) := by
  intro fuel
  induction fuel with
  | zero =>
    constructor
    · intro j _ _ h
      have := sizeJ_pos j
      omega
    · intro ms _ _ _ h _
      have := sizeM_pos ms
      omega
  | succ f ih =>
    constructor
    · intro j level rest hsz
      cases j with
      | null => exact parseValue_null f rest
      | str s =>
        have hform : dumpVal (.str s) level ++ rest = '"' :: (escStr s.data ++ '"' :: rest) := by
          simp [dumpVal, List.append_assoc]
        rw [hform, parseValue_quote,
          parseStrAux_escStr s.data _
            (by
              have := escStr_length_ge s.data
              simp only [List.length_append, List.length_cons]
              omega)
            [] rest]
        rfl
      | obj ms =>
        cases ms with
        | nil =>
          show parseValue (f + 1) ('\x7b' :: ('\x7d' :: rest)) = _
          rw [parseValue_open, skipWs_cons_not _ _ (by decide)]
          rfl
        | cons k v t =>
          have hform : dumpVal (.obj (.cons k v t)) level ++ rest =
              '\x7b' :: ('\n' :: (dumpMembers (.cons k v t) (level + 1) ++ rest)) := by
            simp [dumpVal, List.append_assoc]
          rw [hform, parseValue_open]
          have hs : skipWs ('\n' :: (dumpMembers (.cons k v t) (level + 1) ++ rest)) =
              '"' :: (escStr k.data ++ ('"' :: ':' :: ' ' ::
                (dumpVal v (level + 1) ++ (dmTail t (level + 1) ++ rest)))) := by
            rw [skipWs_cons_ws _ _ (by decide), dumpMembers_chain, skipWs_pad,
              skipWs_cons_not _ _ (by decide)]
          rw [hs]
          show parseMembers f ('"' :: (escStr k.data ++ ('"' :: ':' :: ' ' ::
            (dumpVal v (level + 1) ++ (dmTail t (level + 1) ++ rest))))) [] = _
          rw [show ('"' : Char) :: (escStr k.data ++ ('"' :: ':' :: ' ' ::
              (dumpVal v (level + 1) ++ (dmTail t (level + 1) ++ rest)))) =
              skipWs ('\n' :: (dumpMembers (.cons k v t) (level + 1) ++ rest)) from hs.symm,
            parseMembers_skipWs, parseMembers_wschar f '\n' _ _ (by decide),
            ih.2 (.cons k v t) (level + 1) [] rest
              (by simp only [sizeJ] at hsz; omega) (by simp)]
          rfl
    · intro ms l acc rest hsz hne
      cases ms with
      | nil => exact absurd rfl hne
      | cons k v t =>
        simp only [sizeM] at hsz
        rw [← parseMembers_skipWs]
        have hs : skipWs (dumpMembers (.cons k v t) l ++ rest) =
            '"' :: (escStr k.data ++ ('"' :: ':' :: ' ' ::
              (dumpVal v l ++ (dmTail t l ++ rest)))) := by
          rw [dumpMembers_chain, skipWs_pad, skipWs_cons_not _ _ (by decide)]
        rw [hs, parseMembers_quote,
          parseStrAux_escStr k.data _
            (by
              have := escStr_length_ge k.data
              simp only [List.length_append, List.length_cons]
              omega)
            [] _]
        simp only [List.nil_append]
        have hval : parseValue f (' ' :: (dumpVal v l ++ (dmTail t l ++ rest))) =
            some (v, dmTail t l ++ rest) := by
          rw [parseValue_wschar f ' ' _ (by decide)]
          exact ih.1 v l _ (by omega)
        rw [skipWs_cons_not ':' _ (by decide)]
        simp only [hval]
        cases t with
        | nil =>
          have htail : skipWs (dmTail JsonMembers.nil l ++ rest) = '\x7d' :: rest := by
            rw [show dmTail JsonMembers.nil l ++ rest =
              '\n' :: (pad (l - 1) ++ ('\x7d' :: rest)) by simp [dmTail, List.append_assoc]]
            rw [skipWs_cons_ws _ _ (by decide), skipWs_pad, skipWs_cons_not _ _ (by decide)]
          simp only [htail]
          rw [show JsonMembers.ofList (acc ++ [(k, v)]) =
            JsonMembers.consList acc (.cons k v .nil) from
            (ofList_eq_consList _).trans (consList_snoc acc k v .nil)]
        | cons k2 v2 t2 =>
          have htail : skipWs (dmTail (JsonMembers.cons k2 v2 t2) l ++ rest) =
              ',' :: ('\n' :: (dumpMembers (.cons k2 v2 t2) l ++ rest)) := by
            rw [show dmTail (JsonMembers.cons k2 v2 t2) l ++ rest =
              ',' :: ('\n' :: (dumpMembers (.cons k2 v2 t2) l ++ rest)) by simp [dmTail]]
            exact skipWs_cons_not _ _ (by decide)
          simp only [htail]
          rw [parseMembers_wschar f '\n' _ _ (by decide),
            ih.2 (.cons k2 v2 t2) l (acc ++ [(k, v)]) rest
              (by simp only [sizeM] at hsz ⊢; omega) (by simp),
            consList_snoc]

mutual

theorem sizeJ_le_dumpVal : ∀ (j : Json) (level : Nat), sizeJ j ≤ (dumpVal j level).length
  | .null, _ => by simp [sizeJ, dumpVal]
  | .str s, _ => by simp [sizeJ, dumpVal]
  | .obj .nil, _ => by simp [sizeJ, sizeM, dumpVal]
  | .obj (.cons k v t), level => by
    have h := sizeM_le_dumpMembers (.cons k v t) (level + 1)
    simp only [sizeJ, dumpVal, List.length_cons]
    omega

theorem sizeM_le_dumpMembers : ∀ (ms : JsonMembers) (l : Nat),
    sizeM ms ≤ 1 + (dumpMembers ms l).length
  | .nil, l => by simp [sizeM, dumpMembers]
  | .cons k v t, l => by
    have hv := sizeJ_le_dumpVal v l
    cases t with
    | nil =>
      simp only [sizeM, dumpMembers, List.length_append, List.length_cons, List.length_nil]
      omega
    | cons k2 v2 t2 =>
      have ht := sizeM_le_dumpMembers (.cons k2 v2 t2) l
      simp only [sizeM] at ht ⊢
      simp only [dumpMembers, List.length_append, List.length_cons, List.length_nil]
      omega

end

theorem parseJsonText_dump (j : Json) :
    parseJsonText (String.mk (dumpVal j 0)) = some j := by
  unfold parseJsonText
  rw [show (String.mk (dumpVal j 0)).data = dumpVal j 0 from rfl]
  have hfuel : sizeJ j ≤ (String.mk (dumpVal j 0)).length + 1 := by
    have h1 := sizeJ_le_dumpVal j 0
    have h2 : (String.mk (dumpVal j 0)).length = (dumpVal j 0).length := rfl
    omega
  have hpv := (parse_dump_aux ((String.mk (dumpVal j 0)).length + 1)).1 j 0 [] hfuel
  rw [List.append_nil] at hpv
  rw [hpv]
  rfl

/-! ## C7 / C8: the serializer and the round trip -/

/-- C8. `dump_catalog` returns the `json.dumps(catalog, indent=4)` text
in all cases; with an output path it writes exactly that text to that
path, with no path it writes nothing; and the text deserializes back to
the catalog value itself (so its key ordering is the catalog's
insertion order and its indentation is the fixed 4-space one). -/
theorem dump_catalog_contract (cb : CatalogBuilder) (pth : String) :
    (CatalogBuilder.dump_catalog cb none).2 = none ∧
    (CatalogBuilder.dump_catalog cb (some pth)).2 =
      some (pth, (CatalogBuilder.dump_catalog cb (some pth)).1) ∧
    (CatalogBuilder.dump_catalog cb (some pth)).1 = (CatalogBuilder.dump_catalog cb none).1 ∧
    (CatalogBuilder.dump_catalog cb none).1 = String.mk (dumpVal cb.catalog 0) ∧
    parseJsonText ((CatalogBuilder.dump_catalog cb none).1) = some cb.catalog :=
  ⟨rfl, rfl, rfl, rfl, parseJsonText_dump cb.catalog⟩

/-- C7. Round trip: serializing a catalog with `dump_catalog` and
loading the produced text through a replay-mode `load_catalog` yields a
catalog equal to the original. -/
theorem dump_replay_roundtrip (F : Fetchers) (cb cbR : CatalogBuilder) (pth : Option String)
    (hdev : cbR.develop = true) :
    ∃ cb' log,
      CatalogBuilder.load_catalog F ((CatalogBuilder.dump_catalog cb pth).1) cbR =
        .ok (cb', log) ∧ cb'.catalog = cb.catalog :=
  ⟨_, _, load_catalog_replay_eq F _ cbR cb.catalog hdev (parseJsonText_dump cb.catalog), rfl⟩

/-- Witness for C7: a two-level catalog with a string, a null and an
escaped-character value survives the dump/replay round trip. -/
theorem dump_replay_roundtrip_witness :
    ∃ cb' log,
      CatalogBuilder.load_catalog (Fetchers.mk (fun _ => []) (fun _ _ => ""))
        ((CatalogBuilder.dump_catalog
          (CatalogBuilder.mk []
            (Json.obj (.cons "proj"
              (Json.obj (.cons "name"
                (Json.obj (.cons "value" (.str "proj\nä")
                  (.cons "source" Json.null .nil))) .nil)) .nil))
            [] false)
          (some "catalog.json")).1)
        (CatalogBuilder.mk [] (Json.obj .nil) [] true) = .ok (cb', log) ∧
      cb'.catalog =
        Json.obj (.cons "proj"
          (Json.obj (.cons "name"
            (Json.obj (.cons "value" (.str "proj\nä")
              (.cons "source" Json.null .nil))) .nil)) .nil) :=
  dump_replay_roundtrip (Fetchers.mk (fun _ => []) (fun _ _ => ""))
    (CatalogBuilder.mk []
      (Json.obj (.cons "proj"
        (Json.obj (.cons "name"
          (Json.obj (.cons "value" (.str "proj\nä")
            (.cons "source" Json.null .nil))) .nil)) .nil))
      [] false)
    (CatalogBuilder.mk [] (Json.obj .nil) [] true) (some "catalog.json") rfl
